import Mathlib

/-!
Verification of the hSVD core in heat/core/linalg/svdtools.py.

The embedding covers the pure decision logic of the distributed hierarchical
SVD: the local truncation rule of compute_local_truncated_svd (everything
after the torch.linalg.svd call, which supplies the left factor columns and
the descending singular values), the level scheduler of hsvd (the sweep that
builds future_nodes, send_to and recv_from), the maxmergedim derivation of
hsvd_rank, and the V-rescaling post-processing step of hsvd.

Modelling conventions:
* machine floats become exact rationals; torch.norm(x) ** 2 becomes the sum
  of squares normSq, and the local tolerance loctol, which the source only
  ever compares squared, is carried as loctolSq;
* a matrix is a list of its columns, each column a list of rationals;
* Python slicing sigma[i:] with a possibly negative start index i is
  embedded by pySliceFrom with the usual wrap-around clamping;
* a Python exception (the ValueError raised by min() over an empty
  argwhere result, and the non-finite entries produced by dividing a
  column by a zero norm) is modelled as the value none.
-/

namespace HeatHsvd

/-- Sum of squares of a list of rationals: the square of the Euclidean norm,
torch.norm(xs) ** 2 in the source. -/
def normSq (xs : List ℚ) : ℚ :=
  (xs.map (fun x => x ^ 2)).sum

/-- Python slicing xs[i:] for an integer start index i: a negative i counts
from the right and is clamped at 0, as in sigma_loc[loc_trunc_rank - safetyshift:]. -/
def pySliceFrom (xs : List ℚ) (i : ℤ) : List ℚ :=
  if 0 ≤ i then xs.drop i.toNat else xs.drop (((xs.length : ℤ) + i).toNat)

/-- Embeds cut_noise_rank = max(torch.argwhere(sigma_loc >= noiselevel)) + 1:
one more than the largest index carrying a singular value at or above the
noise level; none when no singular value reaches the noise level
(len(no_noise_idx) == 0 in the source). -/
def cut_noise_rank (sigma : List ℚ) (noiselevel : ℚ) : Option ℕ :=
  (((List.range sigma.length).filter (fun i => noiselevel ≤ sigma.getD i 0)).max?).map
    (fun i => i + 1)

/-- Embeds ideal_trunc_rank = min(torch.argwhere(tensor([norm(sigma[k:])**2
for k in range(len(sigma)+1)]) < loctol**2)): the smallest k in [0, len sigma]
whose tail has squared norm below loctol squared. none embeds the ValueError
the builtin min raises on an empty argwhere result. -/
def ideal_trunc_rank (sigma : List ℚ) (loctolSq : ℚ) : Option ℕ :=
  ((List.range (sigma.length + 1)).filter (fun k => decide (normSq (sigma.drop k) < loctolSq))).min?

/-- The base retained rank loc_trunc_rank before the safety shift is added:
min of maxrank, the noise rank, and (when loctol is given) the ideal
tolerance rank. none when all singular values are noise (degenerate case)
or when the ideal-rank search fails. -/
def base_trunc_rank (sigma : List ℚ) (maxrank : ℕ) (loctolSq : Option ℚ)
    (noiselevel : ℚ) : Option ℕ :=
  match cut_noise_rank sigma noiselevel with
  | none => none
  | some kn =>
    match loctolSq with
    | none => some (min maxrank kn)
    | some L => (ideal_trunc_rank sigma L).map (fun ki => min maxrank (min ki kn))

/-- Embeds compute_local_truncated_svd after its torch.linalg.svd call:
Ucols are the columns of the thin-SVD left factor of the m-by-c local block
and sigma its singular values in descending order (so Ucols.length =
sigma.length = min m c).  Returns the truncated columns, the truncated
singular values and the reported squared truncation error; none embeds the
ValueError of the failed ideal-rank search. The degenerate branch (all
singular values below the noise level) returns one zero column of height m,
sigma = [0] and the squared norm of all singular values. -/
def compute_local_truncated_svd (m : ℕ) (Ucols : List (List ℚ)) (sigma : List ℚ)
    (maxrank : ℕ) (loctolSq : Option ℚ) (safetyshift : ℕ) (noiselevel : ℚ) :
    Option (List (List ℚ) × List ℚ × ℚ) :=
  match cut_noise_rank sigma noiselevel with
  | none => some ([List.replicate m 0], [0], normSq sigma)
  | some _ =>
    (base_trunc_rank sigma maxrank loctolSq noiselevel).map (fun kStar =>
      let r := min sigma.length (kStar + safetyshift)
      (Ucols.take r, sigma.take r,
        normSq (pySliceFrom sigma ((r : ℤ) - (safetyshift : ℤ)))))

/-- The maxmergedim actually passed to hsvd by hsvd_rank when the caller
left maxmergedim unset (svdtools.py lines 96-100): the maximal local column
count L when L >= 2 * (maxrank + safetyshift), otherwise
2 * (maxrank + safetyshift) + 1.  When maxmergedim is given, the gate
rejects it (error) exactly when it is below 2 * (maxrank + safetyshift) + 1.
The dtype and dimension checks on A are orthogonal to these integers and are
assumed to have passed. -/
def hsvd_rank_mmd (L maxrank safetyshift : ℤ) (mmd : Option ℤ) : Except String ℤ :=
  match mmd with
  | some d =>
    if d < 2 * (maxrank + safetyshift) + 1 then Except.error "maxmergedim is too small"
    else Except.ok d
  | none =>
    if 2 * (maxrank + safetyshift) ≤ L then Except.ok L
    else Except.ok (2 * (maxrank + safetyshift) + 1)

/-- State of the scheduling sweep in hsvd (svdtools.py lines 336-355):
the future_nodes list built so far, the send_to assignments as (child,
parent) pairs in assignment order, the current future node, the used width
budget of the current group, and the counter of nodes in the current group. -/
structure PlanState where
  future : List ℕ
  sendTo : List (ℕ × ℕ)
  cfn : ℕ
  used : ℕ
  counter : ℕ

/-- One iteration of the scheduling sweep for the active node c: either c
overflows the budget (or the group is full), in which case c opens a new
group and joins future_nodes, or c merges into the current group and, unless
the budget is still untouched, records its parent in send_to. -/
def planStep (mmd : ℕ) (nom : Option ℕ) (dims : ℕ → ℕ) (st : PlanState) (c : ℕ) :
    PlanState :=
  if mmd < st.used + dims c ∨ nom = some st.counter then
    ⟨st.future ++ [c], st.sendTo, c, dims c, 1⟩
  else
    ⟨st.future,
      (if st.used = 0 then st.sendTo else st.sendTo ++ [(c, st.cfn)]),
      st.cfn, st.used + dims c, st.counter + 1⟩

/-- Initial sweep state: future_nodes = [0], no send_to assignments,
current_future_node = 0, used_budget = 0, counter = 0. -/
def planInit : PlanState := ⟨[0], [], 0, 0, 0⟩

/-- The whole scheduling sweep over the active nodes. -/
def plan (active : List ℕ) (dims : ℕ → ℕ) (mmd : ℕ) (nom : Option ℕ) : PlanState :=
  active.foldl (planStep mmd nom dims) planInit

/-- recv_from[f] as hsvd computes it from send_to (svdtools.py lines
357-359): the children assigned to parent f, in ascending processing order. -/
def recvFrom (st : PlanState) (f : ℕ) : List ℕ :=
  (st.sendTo.filter (fun p => p.2 == f)).map (fun p => p.1)

/-- Per-group bound: the widths of parent f and of its children sum to at
most maxmergedim, and the group size (children plus the parent itself)
respects no_of_merges when it is set. -/
def groupOK (dims : ℕ → ℕ) (mmd : ℕ) (nom : Option ℕ) (st : PlanState) (f : ℕ) :
    Prop :=
  dims f + ((recvFrom st f).map dims).sum ≤ mmd ∧
  ∀ n, nom = some n → (recvFrom st f).length + 1 ≤ n

/-- Invariant carried through the scheduling sweep: every closed group
satisfies the bounds, and the open group led by the current future node
stays within the running budget and counter. -/
def planInv (dims : ℕ → ℕ) (mmd : ℕ) (nom : Option ℕ) (st : PlanState) : Prop :=
  st.cfn ∈ st.future ∧
  (∀ f ∈ st.future, f ≠ st.cfn → groupOK dims mmd nom st f) ∧
  dims st.cfn + ((recvFrom st st.cfn).map dims).sum ≤ st.used ∧
  st.used ≤ mmd ∧
  (recvFrom st st.cfn).length + 1 ≤ st.counter ∧
  (∀ n, nom = some n → st.counter ≤ n) ∧
  (∀ p ∈ st.sendTo, p.2 ∈ st.future)

/-- The sequence of active sets across levels of the reduction: level 0 is
all P ranks, and each next level is the future_nodes list of the sweep,
where dimsSeq gives the published widths at each level. -/
def levelActive (P : ℕ) (dimsSeq : ℕ → ℕ → ℕ) (mmd : ℕ) (nom : Option ℕ) :
    ℕ → List ℕ
  | 0 => List.range P
  | n + 1 => (plan (levelActive P dimsSeq mmd nom n) (dimsSeq n) mmd nom).future

/-- Embeds the V-rescaling post-processing of hsvd (svdtools.py lines
432-435) applied to the columns V of A^T U together with their column norms
sigma: when the norm of the sigma vector is positive the source multiplies V
by diag(1 / sigma), dividing every column by its norm; a zero norm among
them then produces non-finite entries, modelled as none.  When all norms are
zero, V is returned unscaled. -/
def scale_if_norm_pos (V : List (List ℚ)) (sigma : List ℚ) :
    Option (List (List ℚ)) :=
  if 0 < normSq sigma then
    if sigma.any (fun s => s == 0) then none
    else some ((V.zip sigma).map (fun p => p.1.map (fun x => x / p.2)))
  else some V

/-- The V-rescaling as the specification words it: only columns with a
positive norm are divided by their norm, the others are left unscaled.
(Definition follows the specification, for comparison with the source
behaviour scale_if_norm_pos.) -/
def scale_where_pos_spec (V : List (List ℚ)) (sigma : List ℚ) : List (List ℚ) :=
  (V.zip sigma).map (fun p => if 0 < p.2 then p.1.map (fun x => x / p.2) else p.1)

/-- The accumulated squared error of the hsvd level loop on a single process
(P = 1): level 0 truncates the local block, whose thin SVD has left columns
Ucols and singular values sigma, with the given safetyshift; the sweep then
yields future_nodes = [0], a single node, so the final truncation runs with
safetyshift 0 on U diag(sigma1) whose singular values are again sigma1 (U
has orthonormal columns and sigma1 is descending and non-negative); the two
errors add.  The reported relative error of hsvd is the square root of this
value divided by the Frobenius norm of A, whose square is normSq sigma. -/
def hsvd_p1_errSq (m : ℕ) (Ucols : List (List ℚ)) (sigma : List ℚ)
    (maxrank : ℕ) (loctolSq : Option ℚ) (safetyshift : ℕ) (noiselevel : ℚ) :
    Option ℚ :=
  match compute_local_truncated_svd m Ucols sigma maxrank loctolSq safetyshift noiselevel with
  | none => none
  | some (U1, sigma1, e0) =>
    match compute_local_truncated_svd m U1 sigma1 maxrank loctolSq 0 noiselevel with
    | none => none
    | some (_, _, e1) => some (e0 + e1)

/-! Basic lemmas about the embedded operations. -/

@[simp] lemma normSq_nil : normSq [] = 0 := rfl

lemma normSq_cons (a : ℚ) (l : List ℚ) : normSq (a :: l) = a ^ 2 + normSq l := by
  simp [normSq]

lemma normSq_nonneg (l : List ℚ) : 0 ≤ normSq l := by
  induction l with
  | nil => simp
  | cons a l ih => rw [normSq_cons]; exact add_nonneg (sq_nonneg a) ih

lemma normSq_pos_iff (l : List ℚ) : 0 < normSq l ↔ ∃ x ∈ l, x ≠ 0 := by
  induction l with
  | nil => simp
  | cons a l ih =>
    rw [normSq_cons]
    constructor
    · intro h
      by_cases ha : a = 0
      · subst ha
        simp only [ne_eq, zero_pow, zero_add] at h ⊢
        rcases ih.1 (by simpa using h) with ⟨x, hx, hxne⟩
        exact ⟨x, List.mem_cons_of_mem _ hx, hxne⟩
      · exact ⟨a, List.mem_cons_self a l, ha⟩
    · rintro ⟨x, hx, hxne⟩
      rcases List.mem_cons.1 hx with rfl | hx
      · have h1 : 0 < x ^ 2 := by positivity
        have h2 := normSq_nonneg l
        linarith
      · have h1 : 0 < normSq l := ih.2 ⟨x, hx, hxne⟩
        have h2 := sq_nonneg a
        linarith

lemma pySliceFrom_natCast (xs : List ℚ) (k : ℕ) :
    pySliceFrom xs (k : ℤ) = xs.drop k := by
  simp [pySliceFrom]

/-- The degenerate test of compute_local_truncated_svd: no singular value
reaches the noise level exactly when every singular value is below it. -/
lemma cut_noise_rank_eq_none_iff (sigma : List ℚ) (nu : ℚ) :
    cut_noise_rank sigma nu = none ↔ ∀ x ∈ sigma, x < nu := by
  unfold cut_noise_rank
  rw [Option.map_eq_none', List.max?_eq_none_iff, List.filter_eq_nil_iff]
  constructor
  · intro h x hx
    rcases List.mem_iff_getElem.1 hx with ⟨i, hi, rfl⟩
    have := h i (List.mem_range.2 hi)
    rw [List.getD_eq_getElem?_getD, List.getElem?_eq_getElem hi] at this
    simpa using this
  · intro h i hi
    have hi2 := List.mem_range.1 hi
    rw [decide_eq_true_eq, List.getD_eq_getElem?_getD, List.getElem?_eq_getElem hi2]
    simp only [Option.getD_some, not_le]
    exact h _ (List.getElem_mem hi2)

/-- Any base truncation rank is capped by maxrank. -/
lemma base_trunc_rank_le_maxrank {sigma : List ℚ} {maxrank : ℕ} {loctolSq : Option ℚ}
    {nu : ℚ} {k : ℕ} (hk : base_trunc_rank sigma maxrank loctolSq nu = some k) :
    k ≤ maxrank := by
  cases hcn : cut_noise_rank sigma nu with
  | none => unfold base_trunc_rank at hk; simp [hcn] at hk
  | some kn =>
    cases loctolSq with
    | none =>
      unfold base_trunc_rank at hk
      simp only [hcn, Option.some_inj] at hk
      omega
    | some L =>
      cases hki : ideal_trunc_rank sigma L with
      | none =>
        unfold base_trunc_rank at hk
        simp [hcn, hki] at hk
      | some ki =>
        unfold base_trunc_rank at hk
        simp only [hcn, hki, Option.map_some', Option.some_inj] at hk
        omega

/-- If the base rank exists, the noise test was passed. -/
lemma cut_noise_isSome_of_base {sigma : List ℚ} {maxrank : ℕ} {loctolSq : Option ℚ}
    {nu : ℚ} {k : ℕ} (hk : base_trunc_rank sigma maxrank loctolSq nu = some k) :
    ∃ kn, cut_noise_rank sigma nu = some kn := by
  cases hcn : cut_noise_rank sigma nu with
  | none => unfold base_trunc_rank at hk; simp [hcn] at hk
  | some kn => exact ⟨kn, rfl⟩

/-- Evaluation of compute_local_truncated_svd when the base rank k is known
and the safety shift does not exceed the number of singular values: the
returned factors keep the first k + safetyshift columns and the reported
error is the tail starting at the base rank k. -/
lemma compute_local_eq_of_base (m : ℕ) (U : List (List ℚ)) (sigma : List ℚ)
    (maxrank : ℕ) (loctolSq : Option ℚ) (s : ℕ) (nu : ℚ) (k : ℕ)
    (hk : base_trunc_rank sigma maxrank loctolSq nu = some k)
    (hs : k + s ≤ sigma.length) :
    compute_local_truncated_svd m U sigma maxrank loctolSq s nu
      = some (U.take (k + s), sigma.take (k + s), normSq (sigma.drop k)) := by
  rcases cut_noise_isSome_of_base hk with ⟨kn, hcn⟩
  have hr : min sigma.length (k + s) = k + s := min_eq_right hs
  have hi : ((k + s : ℕ) : ℤ) - (s : ℤ) = ((k : ℕ) : ℤ) := by push_cast; ring
  unfold compute_local_truncated_svd
  simp only [hcn, hk, Option.map_some', hr, hi, pySliceFrom_natCast]

/-- When the ideal tolerance rank governs the truncation (it is below
maxrank and the noise rank, and the shifted rank fits), the reported
squared error is the tail at the ideal rank, which by definition of the
ideal rank lies strictly below loctol squared. -/
lemma trunc_err_lt_of_ideal (sigma : List ℚ) (maxrank : ℕ) (L : ℚ) (s : ℕ)
    (nu : ℚ) (kn ki : ℕ) (hkn : cut_noise_rank sigma nu = some kn)
    (hki : ideal_trunc_rank sigma L = some ki)
    (h1 : ki ≤ maxrank) (h2 : ki ≤ kn) (h3 : ki + s ≤ sigma.length)
    (m : ℕ) (U : List (List ℚ)) :
    compute_local_truncated_svd m U sigma maxrank (some L) s nu
      = some (U.take (ki + s), sigma.take (ki + s), normSq (sigma.drop ki)) ∧
    normSq (sigma.drop ki) < L := by
  have hb : base_trunc_rank sigma maxrank (some L) nu = some ki := by
    unfold base_trunc_rank
    simp only [hkn, hki, Option.map_some', Option.some_inj]
    omega
  refine ⟨compute_local_eq_of_base m U sigma maxrank (some L) s nu ki hb h3, ?_⟩
  have hki2 : ((List.range (sigma.length + 1)).filter
      (fun k => decide (normSq (sigma.drop k) < L))).min? = some ki := hki
  have hm := List.min?_mem (fun a b => by omega) hki2
  exact of_decide_eq_true (List.mem_filter.1 hm).2

lemma recvFrom_def (st : PlanState) (f : ℕ) :
    recvFrom st f = (st.sendTo.filter (fun p => p.2 == f)).map (fun p => p.1) :=
  rfl

lemma children_append (l : List (ℕ × ℕ)) (c q f : ℕ) :
    (((l ++ [(c, q)]).filter (fun p => p.2 == f)).map (fun p => p.1))
      = ((l.filter (fun p => p.2 == f)).map (fun p => p.1))
        ++ (if q = f then [c] else []) := by
  rw [List.filter_append, List.map_append]
  by_cases h : q = f <;> simp [h]

lemma children_nil_of_no_parent (l : List (ℕ × ℕ)) (c : ℕ)
    (h : ∀ p ∈ l, p.2 ≠ c) :
    ((l.filter (fun p => p.2 == c)).map (fun p => p.1)) = [] := by
  have hf : l.filter (fun p => p.2 == c) = [] :=
    List.filter_eq_nil_iff.2 (fun p hp => by simpa using h p hp)
  rw [hf, List.map_nil]

/-- The scheduling sweep step preserves the invariant on fresh nodes, and
can only extend future_nodes by the processed node itself. -/
lemma planStep_inv (dims : ℕ → ℕ) (mmd : ℕ) (nom : Option ℕ) (st : PlanState)
    (c : ℕ) (hInv : planInv dims mmd nom st) (hfresh : c ∉ st.future)
    (hdc : dims c ≤ mmd) (hnom : ∀ n, nom = some n → 2 ≤ n) :
    planInv dims mmd nom (planStep mmd nom dims st c) ∧
    ∀ x ∈ (planStep mmd nom dims st c).future, x ∈ st.future ∨ x = c := by
  obtain ⟨hmem, hclosed, hsum, hused, hcnt, hcntle, hpar⟩ := hInv
  by_cases hcond : mmd < st.used + dims c ∨ nom = some st.counter
  · have hstep : planStep mmd nom dims st c
        = ⟨st.future ++ [c], st.sendTo, c, dims c, 1⟩ := by
      unfold planStep; rw [if_pos hcond]
    rw [hstep]
    have hnoch : ∀ p ∈ st.sendTo, p.2 ≠ c := by
      intro p hp
      intro hpc
      exact hfresh (hpc ▸ hpar p hp)
    have hnil : ((st.sendTo.filter (fun p => p.2 == c)).map (fun p => p.1)) = [] :=
      children_nil_of_no_parent st.sendTo c hnoch
    constructor
    · refine ⟨by simp, ?_, ?_, hdc, ?_, ?_, ?_⟩
      · intro f hf hfc
        have hf2 : f ∈ st.future := by
          rcases List.mem_append.1 hf with h | h
          · exact h
          · exact absurd (List.mem_singleton.1 h) hfc
        by_cases hfcfn : f = st.cfn
        · subst hfcfn
          refine ⟨?_, ?_⟩
          · exact le_trans hsum hused
          · intro n hn
            exact le_trans (hcnt) (hcntle n hn)
        · exact hclosed f hf2 hfcfn
      · rw [recvFrom_def]
        simp only [hnil, List.map_nil, List.sum_nil]
        omega
      · rw [recvFrom_def]
        simp only [hnil, List.length_nil]
        omega
      · intro n hn
        show 1 ≤ n
        have := hnom n hn
        omega
      · intro p hp
        exact List.mem_append.2 (Or.inl (hpar p hp))
    · intro x hx
      rcases List.mem_append.1 hx with h | h
      · exact Or.inl h
      · exact Or.inr (List.mem_singleton.1 h)
  · have hnc : ¬(mmd < st.used + dims c ∨ nom = some st.counter) := hcond
    push_neg at hcond
    obtain ⟨hbud, hnomne⟩ := hcond
    by_cases hu : st.used = 0
    · have hstep : planStep mmd nom dims st c
          = ⟨st.future, st.sendTo, st.cfn, st.used + dims c, st.counter + 1⟩ := by
        unfold planStep; rw [if_neg hnc, if_pos hu]
      rw [hstep]
      refine ⟨⟨hmem, ?_, ?_, hbud, Nat.le_succ_of_le hcnt, ?_,
        hpar⟩, fun x hx => Or.inl hx⟩
      · intro f hf hfc
        exact hclosed f hf hfc
      · show dims st.cfn + ((recvFrom st st.cfn).map dims).sum ≤ st.used + dims c
        omega
      · intro n hn
        show st.counter + 1 ≤ n
        have h1 := hcntle n hn
        have h2 : n ≠ st.counter := fun h => hnomne (h ▸ hn)
        omega
    · have hstep : planStep mmd nom dims st c
          = ⟨st.future, st.sendTo ++ [(c, st.cfn)], st.cfn, st.used + dims c,
              st.counter + 1⟩ := by
        unfold planStep; rw [if_neg hnc, if_neg hu]
      rw [hstep]
      refine ⟨⟨hmem, ?_, ?_, hbud, ?_, ?_, ?_⟩, fun x hx => Or.inl hx⟩
      · intro f hf hfc
        obtain ⟨hg1, hg2⟩ := hclosed f hf hfc
        have hne : st.cfn ≠ f := fun h => hfc (h.symm)
        constructor
        · rw [recvFrom_def]
          simp only [children_append, if_neg hne, List.append_nil]
          exact hg1
        · intro n hn
          rw [recvFrom_def]
          simp only [children_append, if_neg hne, List.append_nil]
          exact hg2 n hn
      · rw [recvFrom_def]
        simp only [children_append, if_true, List.map_append, List.sum_append]
        rw [recvFrom_def] at hsum
        simp only [List.map_cons, List.map_nil, List.sum_cons, List.sum_nil]
        omega
      · rw [recvFrom_def]
        simp only [children_append, if_true, List.length_append,
          List.length_singleton]
        rw [recvFrom_def] at hcnt
        omega
      · intro n hn
        show st.counter + 1 ≤ n
        have h1 := hcntle n hn
        have h2 : n ≠ st.counter := fun h => hnomne (h ▸ hn)
        omega
      · intro p hp
        rcases List.mem_append.1 hp with h | h
        · exact hpar p h
        · rw [List.mem_singleton.1 h]
          exact hmem

/-- The invariant survives the whole sweep over a duplicate-free list of
fresh active nodes whose widths fit the merge bound. -/
lemma planFold_inv (dims : ℕ → ℕ) (mmd : ℕ) (nom : Option ℕ)
    (hnom : ∀ n, nom = some n → 2 ≤ n) :
    ∀ (l : List ℕ) (st : PlanState), planInv dims mmd nom st → l.Nodup →
      (∀ c ∈ l, c ∉ st.future) → (∀ c ∈ l, dims c ≤ mmd) →
      planInv dims mmd nom (l.foldl (planStep mmd nom dims) st) := by
  intro l
  induction l with
  | nil => intro st hInv _ _ _; exact hInv
  | cons c l ih =>
    intro st hInv hnd hfresh hdims
    obtain ⟨hInv1, hsub⟩ := planStep_inv dims mmd nom st c hInv
      (hfresh c (List.mem_cons_self c l)) (hdims c (List.mem_cons_self c l)) hnom
    rw [List.foldl_cons]
    apply ih _ hInv1 (List.Nodup.of_cons hnd)
    · intro x hx hxmem
      rcases hsub x hxmem with h | h
      · exact hfresh x (List.mem_cons_of_mem c hx) h
      · exact (List.nodup_cons.1 hnd).1 (h ▸ hx)
    · intro x hx
      exact hdims x (List.mem_cons_of_mem c hx)

/-! Claim theorems. -/

/-- C1 (counterexample): with singular values [2, 1], maxrank 1, no loctol
and safetyshift 2, the base rank is k* = 1, but the clamp
loc_trunc_rank = min(2, 1 + 2) = 2 makes the error tail start at index
loc_trunc_rank - safetyshift = 0: compute_local_truncated_svd reports
e2 = 4 + 1 = 5, not the claimed tail at the base rank, which is 1.  So the
safety shift does change which tail the reported error is computed from
once k* + safetyshift exceeds the number of singular values. -/
theorem C1_counterexample :
    compute_local_truncated_svd 2 [[1, 0], [0, 1]] [2, 1] 1 none 2 (1 / 10 ^ 14)
      = some ([[1, 0], [0, 1]], [2, 1], 5) ∧
    base_trunc_rank [2, 1] 1 none (1 / 10 ^ 14) = some 1 ∧
    normSq (List.drop 1 [2, 1]) = 1 ∧ (5 : ℚ) ≠ 1 := by
  have hcn : cut_noise_rank [2, 1] (1 / 10 ^ 14) = some 2 := by
    norm_num [cut_noise_rank, List.range_succ, List.max?]
  have hb : base_trunc_rank [2, 1] 1 none (1 / 10 ^ 14) = some 1 := by
    simp only [base_trunc_rank, hcn, Option.some_inj]
    omega
  refine ⟨?_, hb, by norm_num [normSq], by norm_num⟩
  simp only [compute_local_truncated_svd, hcn, hb, Option.map_some']
  norm_num [pySliceFrom, normSq]

/-- C1 (amended): the reported squared error of compute_local_truncated_svd
equals the tail of the singular values starting at the base rank k*, for
every safetyshift, PROVIDED k* + safetyshift does not exceed the number of
singular values; in that regime the returned factors keep k* + safetyshift
columns while the error is computed from the base rank k*. -/
theorem C1_amended (m : ℕ) (U : List (List ℚ)) (sigma : List ℚ)
    (maxrank : ℕ) (loctolSq : Option ℚ) (s : ℕ) (nu : ℚ) (k : ℕ)
    (hk : base_trunc_rank sigma maxrank loctolSq nu = some k)
    (hs : k + s ≤ sigma.length) :
    compute_local_truncated_svd m U sigma maxrank loctolSq s nu
      = some (U.take (k + s), sigma.take (k + s), normSq (sigma.drop k)) :=
  compute_local_eq_of_base m U sigma maxrank loctolSq s nu k hk hs

/-- Witness for C1 (amended) at singular values [2, 1], maxrank 1,
safetyshift 1: base rank 1, two columns kept, error is the tail at 1. -/
theorem C1_witness :
    compute_local_truncated_svd 2 [[1, 0], [0, 1]] [2, 1] 1 none 1 (1 / 10 ^ 14)
      = some ([[1, 0], [0, 1]].take (1 + 1), [2, 1].take (1 + 1),
          normSq ([2, 1].drop 1)) :=
  by
  have hcn : cut_noise_rank [2, 1] (1 / 10 ^ 14) = some 2 := by
    norm_num [cut_noise_rank, List.range_succ, List.max?]
  exact C1_amended 2 [[1, 0], [0, 1]] [2, 1] 1 none 1 (1 / 10 ^ 14) 1
    (by simp only [base_trunc_rank, hcn, Option.some_inj]; omega) (by norm_num)

/-- C3 (counterexample): at the boundary L = 2 * (maxrank + safetyshift)
(here L = 2, maxrank = 1, safetyshift = 0) hsvd_rank passes maxmergedim = L = 2
to hsvd, which is smaller than max(L, 2 * (maxrank + safetyshift) + 1) = 3. -/
theorem C3_counterexample :
    hsvd_rank_mmd 2 1 0 none = Except.ok 2 ∧
    (max 2 (2 * (1 + 0) + 1) : ℤ) = 3 ∧ (2 : ℤ) ≠ 3 := by
  refine ⟨rfl, by norm_num, by norm_num⟩

/-- C3 (amended): when maxmergedim is unset, hsvd_rank passes
max(L, 2 * (maxrank + safetyshift) + 1) to hsvd whenever
L is not exactly 2 * (maxrank + safetyshift); at that boundary it passes L
itself. In every case the value passed is at least 2 * (maxrank + safetyshift),
so two post-truncation factors always fit, but at the boundary it is smaller
than 2 * (maxrank + safetyshift) + 1. -/
theorem C3_amended (L maxrank s : ℤ) (h : L ≠ 2 * (maxrank + s)) :
    hsvd_rank_mmd L maxrank s none = Except.ok (max L (2 * (maxrank + s) + 1)) ∧
    ∀ v, hsvd_rank_mmd L maxrank s none = Except.ok v → 2 * (maxrank + s) ≤ v := by
  unfold hsvd_rank_mmd
  by_cases hc : 2 * (maxrank + s) ≤ L
  · have hmax : max L (2 * (maxrank + s) + 1) = L := max_eq_left (by omega)
    rw [if_pos hc, hmax]
    exact ⟨rfl, fun v hv => by cases hv; omega⟩
  · have hmax : max L (2 * (maxrank + s) + 1) = 2 * (maxrank + s) + 1 :=
      max_eq_right (by omega)
    rw [if_neg hc, hmax]
    exact ⟨rfl, fun v hv => by cases hv; omega⟩

/-- Witness for C3 (amended) away from the boundary: L = 5, maxrank = 1,
safetyshift = 0 yields maxmergedim = max 5 3 = 5. -/
theorem C3_witness :
    hsvd_rank_mmd 5 1 0 none = Except.ok (max 5 (2 * (1 + 0) + 1)) ∧
    ∀ v, hsvd_rank_mmd 5 1 0 none = Except.ok v → 2 * (1 + 0) ≤ v :=
  C3_amended 5 1 0 (by norm_num)

/-- C4 (counterexample): hsvd_rank performs no positivity check on maxrank.
With maxrank = 0 (non-positive), safetyshift 5 and maxmergedim unset, the
gate raises nothing and simply derives maxmergedim = 11: no input-validation
error occurs before the level-0 SVD. -/
theorem C4_counterexample :
    hsvd_rank_mmd 4 0 5 none = Except.ok 11 ∧
    (hsvd_rank_mmd 4 0 5 none).isOk = true := by
  exact ⟨rfl, rfl⟩

/-- C4 (amended): the hsvd_rank gate never raises when maxmergedim is unset,
whatever the sign of maxrank; the only error it can raise is for a provided
maxmergedim below 2 * (maxrank + safetyshift) + 1.  In particular a
non-positive maxrank passes the gate unchecked. -/
theorem C4_amended (L maxrank s : ℤ) (hmr : maxrank ≤ 0) :
    (hsvd_rank_mmd L maxrank s none).isOk = true ∧
    ∀ d, (∃ e, hsvd_rank_mmd L maxrank s (some d) = Except.error e) ↔
      d < 2 * (maxrank + s) + 1 := by
  constructor
  · unfold hsvd_rank_mmd
    by_cases hc : 2 * (maxrank + s) ≤ L
    · rw [if_pos hc]; rfl
    · rw [if_neg hc]; rfl
  · intro d
    simp only [hsvd_rank_mmd]
    by_cases hd : d < 2 * (maxrank + s) + 1
    · rw [if_pos hd]
      exact ⟨fun _ => hd, fun _ => ⟨"maxmergedim is too small", rfl⟩⟩
    · rw [if_neg hd]
      constructor
      · rintro ⟨e, he⟩
        cases he
      · intro h
        exact absurd h hd

/-- Witness for C4 (amended) at L = 4, maxrank = 0, safetyshift = 5. -/
theorem C4_witness :
    (hsvd_rank_mmd 4 0 5 none).isOk = true ∧
    ∀ d, (∃ e, hsvd_rank_mmd 4 0 5 (some d) = Except.error e) ↔
      d < 2 * (0 + 5) + 1 :=
  C4_amended 4 0 5 (by norm_num)

/-- C6 (confirmed): when every singular value is below the noise level,
compute_local_truncated_svd returns the degenerate factor: one zero column
of height m, sigma = [0], and the squared norm of all singular values as the
error, with no failure (the result is some, never none). -/
theorem C6_degenerate (m : ℕ) (U : List (List ℚ)) (sigma : List ℚ)
    (maxrank : ℕ) (loctolSq : Option ℚ) (s : ℕ) (nu : ℚ)
    (h : ∀ x ∈ sigma, x < nu) :
    compute_local_truncated_svd m U sigma maxrank loctolSq s nu
      = some ([List.replicate m 0], [0], normSq sigma) := by
  unfold compute_local_truncated_svd
  rw [(cut_noise_rank_eq_none_iff sigma nu).2 h]

/-- Witness for C6 at singular values [1e-20, 0] against the float64 noise
level 1e-14 (the scenario of an all-noise local block). -/
theorem C6_witness :
    compute_local_truncated_svd 2 [[1, 0], [0, 1]] [1 / 10 ^ 20, 0] 5 none 3 (1 / 10 ^ 14)
      = some ([List.replicate 2 0], [0], normSq [1 / 10 ^ 20, 0]) :=
  C6_degenerate 2 [[1, 0], [0, 1]] [1 / 10 ^ 20, 0] 5 none 3 (1 / 10 ^ 14)
    (by intro x hx
        simp only [List.mem_cons, List.not_mem_nil, or_false] at hx
        rcases hx with rfl | rfl <;> norm_num)

/-- C7 (counterexample): with loctol = 0 and the nonzero singular value
vector [1], no tail has squared norm below loctol squared, the argwhere
result is empty and the builtin min raises (modelled as none): the ideal
rank does not default to c = 1, and compute_local_truncated_svd fails
rather than truncating. -/
theorem C7_counterexample :
    ideal_trunc_rank [1] 0 = none ∧
    ideal_trunc_rank [1] 0 ≠ some 1 ∧
    compute_local_truncated_svd 1 [[1]] [1] 5 (some 0) 0 (1 / 10 ^ 14) = none := by
  have hit : ideal_trunc_rank [1] 0 = none := by
    norm_num [ideal_trunc_rank, List.range_succ, normSq]
  have hcn : cut_noise_rank [1] (1 / 10 ^ 14) = some 1 := by
    norm_num [cut_noise_rank, List.range_succ, List.max?]
  refine ⟨hit, by simp [hit], ?_⟩
  simp only [compute_local_truncated_svd, base_trunc_rank, hcn, hit, Option.map_none']

/-- C7 (amended): whenever loctol squared is positive, the ideal-rank search
of compute_local_truncated_svd succeeds and returns exactly
min of all k with normSq of the tail from k below loctol squared: the found
index is at most c, its tail is below the threshold, and every smaller index
has a tail at or above it.  (The sentinel k = c always qualifies because the
empty tail has squared norm 0.)  When loctol = 0 and the singular values are
nonzero no such k exists and the search fails instead of defaulting to c. -/
theorem C7_amended (sigma : List ℚ) (L : ℚ) (hL : 0 < L) :
    ∃ j, ideal_trunc_rank sigma L = some j ∧ j ≤ sigma.length ∧
      normSq (sigma.drop j) < L ∧ ∀ i, i < j → L ≤ normSq (sigma.drop i) := by
  have hmem : sigma.length ∈ (List.range (sigma.length + 1)).filter
      (fun k => decide (normSq (sigma.drop k) < L)) := by
    apply List.mem_filter.2
    refine ⟨List.mem_range.2 (by omega), ?_⟩
    rw [decide_eq_true_eq, List.drop_length]
    simpa using hL
  cases hj : ideal_trunc_rank sigma L with
  | none =>
    unfold ideal_trunc_rank at hj
    rw [List.min?_eq_none_iff] at hj
    rw [hj] at hmem
    cases hmem
  | some j =>
    have hj2 : ((List.range (sigma.length + 1)).filter
        (fun k => decide (normSq (sigma.drop k) < L))).min? = some j := hj
    have hchar := (List.min?_eq_some_iff (fun a => Nat.le_refl a)
      (fun a b => by omega) (fun a b c => by omega)).1 hj2
    obtain ⟨hjmem, hjle⟩ := hchar
    have hjf := List.mem_filter.1 hjmem
    refine ⟨j, rfl, by have := List.mem_range.1 hjf.1; omega,
      of_decide_eq_true hjf.2, ?_⟩
    intro i hij
    by_contra hlt
    push_neg at hlt
    have hif : i ∈ (List.range (sigma.length + 1)).filter
        (fun k => decide (normSq (sigma.drop k) < L)) := by
      apply List.mem_filter.2
      exact ⟨List.mem_range.2 (by have := List.mem_range.1 hjf.1; omega),
        decide_eq_true hlt⟩
    exact absurd (hjle i hif) (by omega)

/-- Witness for C7 (amended) at sigma = [1], loctol squared 1/4: the search
finds j = 1 (the sentinel), whose empty tail is below the threshold. -/
theorem C7_witness :
    ∃ j, ideal_trunc_rank [1] (1 / 4) = some j ∧ j ≤ List.length [(1 : ℚ)] ∧
      normSq (List.drop j [1]) < 1 / 4 ∧
      ∀ i, i < j → 1 / 4 ≤ normSq (List.drop i [(1 : ℚ)]) :=
  C7_amended [1] (1 / 4) (by norm_num)

/-- C2 (counterexample): in the hsvd post-processing, with column norms
sigma = [5, 0] (some but not all zero), the source guard vector_norm(sigma) > 0
holds, so V is multiplied by diag(1 / sigma) as a whole and the second
column is divided by zero (result none); the specification's column-wise
rule would leave the zero column unscaled. -/
theorem C2_counterexample :
    scale_if_norm_pos [[3, 4], [0, 0]] [5, 0] = none ∧
    scale_where_pos_spec [[3, 4], [0, 0]] [5, 0] = [[3 / 5, 4 / 5], [0, 0]] := by
  constructor
  · simp only [scale_if_norm_pos]
    rw [if_pos (by norm_num [normSq])]
    rw [if_pos (by norm_num)]
  · norm_num [scale_where_pos_spec]

/-- C2 (amended): the post-processing divides by zero exactly when the
column norms are neither all zero nor all nonzero: the rescaling is
all-or-nothing, guarded by the norm of the whole sigma vector, and does not
skip the zero columns individually. -/
theorem C2_amended (V : List (List ℚ)) (sigma : List ℚ) :
    scale_if_norm_pos V sigma = none ↔
      (∃ x ∈ sigma, x ≠ 0) ∧ (∃ x ∈ sigma, x = 0) := by
  unfold scale_if_norm_pos
  by_cases hp : 0 < normSq sigma
  · rw [if_pos hp]
    by_cases hz : sigma.any (fun s => s == 0) = true
    · rw [if_pos hz]
      simp only [List.any_eq_true, beq_iff_eq] at hz
      exact iff_of_true rfl ⟨(normSq_pos_iff sigma).1 hp, hz⟩
    · rw [if_neg hz]
      apply iff_of_false (by simp)
      rintro ⟨-, x, hx, hx0⟩
      exact hz (List.any_eq_true.2 ⟨x, hx, by simp [hx0]⟩)
  · rw [if_neg hp]
    apply iff_of_false (by simp)
    rintro ⟨⟨x, hx, hxne⟩, -⟩
    exact hp ((normSq_pos_iff sigma).2 ⟨x, hx, hxne⟩)

/-- C10 (confirmed): on any local block of shape m by c with m, c, maxrank
at least 1, whenever compute_local_truncated_svd returns (the singular
values and left columns coming from a thin SVD, so both lists have length
min m c), the output is well-formed: as many singular values as retained
columns, at most min(min(m, c), maxrank + safetyshift) of them, and a
non-negative squared error. -/
theorem C10_wellformed (m c : ℕ) (Ucols : List (List ℚ)) (sigma : List ℚ)
    (maxrank : ℕ) (loctolSq : Option ℚ) (s : ℕ) (nu : ℚ)
    (Ur : List (List ℚ)) (sr : List ℚ) (e : ℚ)
    (hm : 1 ≤ m) (hc : 1 ≤ c) (hmr : 1 ≤ maxrank)
    (hsl : sigma.length = min m c) (hUl : Ucols.length = min m c)
    (hres : compute_local_truncated_svd m Ucols sigma maxrank loctolSq s nu
      = some (Ur, sr, e)) :
    Ur.length = sr.length ∧ Ur.length ≤ min (min m c) (maxrank + s) ∧ 0 ≤ e := by
  cases hcn : cut_noise_rank sigma nu with
  | none =>
    unfold compute_local_truncated_svd at hres
    simp only [hcn, Option.some_inj, Prod.mk.injEq] at hres
    obtain ⟨h1, h2, h3⟩ := hres
    rw [← h1, ← h2, ← h3]
    refine ⟨rfl, by simp; omega, normSq_nonneg sigma⟩
  | some kn =>
    unfold compute_local_truncated_svd at hres
    simp only [hcn] at hres
    cases hb : base_trunc_rank sigma maxrank loctolSq nu with
    | none => rw [hb] at hres; simp at hres
    | some k =>
      rw [hb] at hres
      simp only [Option.map_some', Option.some_inj, Prod.mk.injEq] at hres
      obtain ⟨h1, h2, h3⟩ := hres
      have hkm : k ≤ maxrank := base_trunc_rank_le_maxrank hb
      rw [← h1, ← h2, ← h3]
      refine ⟨?_, ?_, normSq_nonneg _⟩
      · rw [List.length_take, List.length_take, hsl, hUl]
      · rw [List.length_take, hUl, hsl]
        omega

/-- Witness for C10 at a 2 by 2 block with singular values [2, 1],
maxrank 1, no loctol, safetyshift 0. -/
theorem C10_witness :
    List.length [[(1 : ℚ), 0]] = List.length [(2 : ℚ)] ∧
    List.length [[(1 : ℚ), 0]] ≤ min (min 2 2) (1 + 0) ∧ (0 : ℚ) ≤ 1 := by
  have hcn : cut_noise_rank [2, 1] (1 / 10 ^ 14) = some 2 := by
    norm_num [cut_noise_rank, List.range_succ, List.max?]
  have hb : base_trunc_rank [2, 1] 1 none (1 / 10 ^ 14) = some 1 := by
    simp only [base_trunc_rank, hcn, Option.some_inj]
    omega
  refine C10_wellformed 2 2 [[1, 0], [0, 1]] [2, 1] 1 none 0 (1 / 10 ^ 14)
    [[1, 0]] [2] 1 (by norm_num) (by norm_num) (by norm_num) (by norm_num)
    (by norm_num) ?_
  simp only [compute_local_truncated_svd, hcn, hb, Option.map_some']
  norm_num [pySliceFrom, normSq]

/-- C9 (counterexample): single process (P = 1), rtol = 1/10, singular
values [1, 9/100] (Frobenius norm squared 10081/10000), safetyshift 1,
maxrank 10 (never clamping): loctol squared is
rtol^2 * normSq / (2P - 1) = 10081/1000000.  The level-0 truncation keeps
both values (base rank 1 plus shift) and reports 81/10000; the final
truncation (forced safetyshift 0) cuts to rank 1 and reports another
81/10000.  The accumulated 81/5000 exceeds rtol^2 times the squared
Frobenius norm, i.e. the reported relative error sqrt(e2)/normA exceeds
rtol even though maxrank clamps nothing. -/
theorem C9_counterexample :
    hsvd_p1_errSq 2 [[1, 0], [0, 1]] [1, 9 / 100] 10 (some (10081 / 1000000)) 1
        (1 / 10 ^ 14) = some (81 / 5000) ∧
    (10081 / 1000000 : ℚ) = (1 / 10) ^ 2 * normSq [1, 9 / 100] / (2 * 1 - 1) ∧
    ¬ (81 / 5000 : ℚ) ≤ (1 / 10) ^ 2 * normSq [1, 9 / 100] := by
  have hcn : cut_noise_rank [1, 9 / 100] (1 / 10 ^ 14) = some 2 := by
    norm_num [cut_noise_rank, List.range_succ, List.max?]
  have hki : ideal_trunc_rank [1, 9 / 100] (10081 / 1000000) = some 1 := by
    norm_num [ideal_trunc_rank, List.range_succ, normSq, List.min?]
  have hb : base_trunc_rank [1, 9 / 100] 10 (some (10081 / 1000000)) (1 / 10 ^ 14)
      = some 1 := by
    simp only [base_trunc_rank, hcn, hki, Option.map_some', Option.some_inj]
    omega
  have h0 : compute_local_truncated_svd 2 [[1, 0], [0, 1]] [1, 9 / 100] 10
      (some (10081 / 1000000)) 1 (1 / 10 ^ 14)
      = some ([[1, 0], [0, 1]], [1, 9 / 100], 81 / 10000) := by
    rw [compute_local_eq_of_base 2 [[1, 0], [0, 1]] [1, 9 / 100] 10
      (some (10081 / 1000000)) 1 (1 / 10 ^ 14) 1 hb (by norm_num)]
    norm_num [normSq]
  have h1 : compute_local_truncated_svd 2 [[1, 0], [0, 1]] [1, 9 / 100] 10
      (some (10081 / 1000000)) 0 (1 / 10 ^ 14)
      = some ([[1, 0]], [1], 81 / 10000) := by
    rw [compute_local_eq_of_base 2 [[1, 0], [0, 1]] [1, 9 / 100] 10
      (some (10081 / 1000000)) 0 (1 / 10 ^ 14) 1 hb (by norm_num)]
    norm_num [normSq]
  refine ⟨?_, by norm_num [normSq], by norm_num [normSq]⟩
  simp only [hsvd_p1_errSq, h0, h1]
  norm_num

/-- C9 (amended): for a single process, when the ideal tolerance rank
governs both truncation events (no clamping by maxrank or the noise floor,
and the level-0 shifted rank fits), the reported squared error stays below
2 * rtol^2 * normA^2 rather than rtol^2 * normA^2: each of the two events
(level 0, and the forced final re-truncation with safetyshift 0)
contributes less than loctol^2 = rtol^2 * normA^2 / (2P - 1) with P = 1.
So the reported relative error is below sqrt(2) * rtol, but can exceed
rtol itself. -/
theorem C9_amended (m : ℕ) (U : List (List ℚ)) (sigma : List ℚ) (maxrank : ℕ)
    (L rtolSq : ℚ) (s : ℕ) (nu : ℚ)
    (hL : L = rtolSq * normSq sigma)
    (kn ki : ℕ) (hkn : cut_noise_rank sigma nu = some kn)
    (hki : ideal_trunc_rank sigma L = some ki)
    (h1 : ki ≤ maxrank) (h2 : ki ≤ kn) (h3 : ki + s ≤ sigma.length)
    (kn2 ki2 : ℕ)
    (hkn2 : cut_noise_rank (sigma.take (ki + s)) nu = some kn2)
    (hki2 : ideal_trunc_rank (sigma.take (ki + s)) L = some ki2)
    (h4 : ki2 ≤ maxrank) (h5 : ki2 ≤ kn2) :
    ∃ e, hsvd_p1_errSq m U sigma maxrank (some L) s nu = some e ∧
      e < 2 * (rtolSq * normSq sigma) := by
  obtain ⟨heq0, he0⟩ :=
    trunc_err_lt_of_ideal sigma maxrank L s nu kn ki hkn hki h1 h2 h3 m U
  have h6 : ki2 + 0 ≤ (sigma.take (ki + s)).length := by
    have hki2b : ((List.range ((sigma.take (ki + s)).length + 1)).filter
        (fun k => decide (normSq ((sigma.take (ki + s)).drop k) < L))).min?
        = some ki2 := hki2
    have hm := List.min?_mem (fun a b => by omega) hki2b
    have := List.mem_range.1 (List.mem_filter.1 hm).1
    omega
  obtain ⟨heq1, he1⟩ :=
    trunc_err_lt_of_ideal (sigma.take (ki + s)) maxrank L 0 nu kn2 ki2 hkn2
      hki2 h4 h5 h6 m (U.take (ki + s))
  refine ⟨normSq (sigma.drop ki) + normSq ((sigma.take (ki + s)).drop ki2),
    ?_, ?_⟩
  · simp only [hsvd_p1_errSq, heq0, heq1]
  · rw [hL] at he0 he1
    linarith

/-- Witness for C9 (amended) at the inputs of the counterexample:
rtol^2 = 1/100, singular values [1, 9/100]: the total error 81/5000 is
below 2 * rtol^2 * normA^2 = 10081/500000. -/
theorem C9_witness :
    ∃ e, hsvd_p1_errSq 2 [[1, 0], [0, 1]] [1, 9 / 100] 10
        (some ((1 / 100) * normSq [1, 9 / 100])) 1 (1 / 10 ^ 14) = some e ∧
      e < 2 * ((1 / 100) * normSq [1, 9 / 100]) :=
  C9_amended 2 [[1, 0], [0, 1]] [1, 9 / 100] 10
    ((1 / 100) * normSq [1, 9 / 100]) (1 / 100) 1 (1 / 10 ^ 14) rfl
    2 1 (by norm_num [cut_noise_rank, List.range_succ, List.max?])
    (by norm_num [ideal_trunc_rank, List.range_succ, normSq, List.min?])
    (by norm_num) (by norm_num) (by norm_num)
    2 1 (by norm_num [cut_noise_rank, List.range_succ, List.max?])
    (by norm_num [ideal_trunc_rank, List.range_succ, normSq, List.min?])
    (by norm_num) (by norm_num)

/-- C5 (confirmed): over any level's active list (rank 0 first, no
duplicates, as hsvd maintains), if every published width is at most
maxmergedim and no_of_merges is unset or at least 2, then for every future
node f the widths of f and of all children in recv_from[f] sum to at most
maxmergedim, and the group size including f is at most no_of_merges when it
is set. -/
theorem C5_scheduler (rest : List ℕ) (dims : ℕ → ℕ) (mmd : ℕ) (nom : Option ℕ)
    (hnd : (0 :: rest).Nodup) (hdims : ∀ c ∈ 0 :: rest, dims c ≤ mmd)
    (hnom : ∀ n, nom = some n → 2 ≤ n) :
    ∀ f ∈ (plan (0 :: rest) dims mmd nom).future,
      dims f + ((recvFrom (plan (0 :: rest) dims mmd nom) f).map dims).sum ≤ mmd ∧
      ∀ n, nom = some n →
        (recvFrom (plan (0 :: rest) dims mmd nom) f).length + 1 ≤ n := by
  have hd0 : dims 0 ≤ mmd := hdims 0 (List.mem_cons_self 0 rest)
  have hnc : ¬(mmd < planInit.used + dims 0 ∨ nom = some planInit.counter) := by
    rintro (h | h)
    · have h2 : mmd < 0 + dims 0 := h
      omega
    · exact absurd (hnom 0 h) (by omega)
  have hst0 : plan (0 :: rest) dims mmd nom
      = rest.foldl (planStep mmd nom dims) ⟨[0], [], 0, dims 0, 1⟩ := by
    unfold plan
    rw [List.foldl_cons]
    congr 1
    unfold planStep
    rw [if_neg hnc]
    simp [planInit]
  have hInv0 : planInv dims mmd nom ⟨[0], [], 0, dims 0, 1⟩ := by
    refine ⟨List.mem_singleton.2 rfl, ?_, ?_, hd0, ?_, ?_, ?_⟩
    · intro f hf hfc
      exact absurd (List.mem_singleton.1 hf) hfc
    · rw [recvFrom_def]
      simp
    · rw [recvFrom_def]
      simp
    · intro n hn
      show 1 ≤ n
      have := hnom n hn
      omega
    · intro p hp
      exact absurd hp (List.not_mem_nil p)
  have hfinal := planFold_inv dims mmd nom hnom rest ⟨[0], [], 0, dims 0, 1⟩ hInv0
    (List.Nodup.of_cons hnd)
    (by
      intro c hc hcm
      have hc0 : c = 0 := List.mem_singleton.1 hcm
      exact (List.nodup_cons.1 hnd).1 (hc0 ▸ hc))
    (fun c hc => hdims c (List.mem_cons_of_mem 0 hc))
  rw [hst0]
  obtain ⟨hmem, hclosed, hsum, hused, hcnt, hcntle, hpar⟩ := hfinal
  intro f hf
  by_cases hfc : f = (rest.foldl (planStep mmd nom dims) ⟨[0], [], 0, dims 0, 1⟩).cfn
  · subst hfc
    exact ⟨le_trans hsum hused, fun n hn => le_trans hcnt (hcntle n hn)⟩
  · exact hclosed f hf hfc

/-- Witness for C5 at active nodes [0, 1, 2], unit widths, maxmergedim 3 and
no arity limit: all three nodes merge into the single future node 0 and its
group exactly fills the budget. -/
theorem C5_witness :
    (fun _ : ℕ => 1) 0
        + ((recvFrom (plan [0, 1, 2] (fun _ => 1) 3 none) 0).map
            (fun _ : ℕ => 1)).sum ≤ 3 ∧
    ∀ n, (none : Option ℕ) = some n →
      (recvFrom (plan [0, 1, 2] (fun _ => 1) 3 none) 0).length + 1 ≤ n :=
  C5_scheduler [1, 2] (fun _ => 1) 3 none (by decide)
    (fun c _ => le_refl 1 |>.trans (by omega)) (fun n h => by cases h) 0
    (by decide)

lemma foldl_planStep_future (dims : ℕ → ℕ) (mmd : ℕ) (nom : Option ℕ) :
    ∀ (l : List ℕ) (st : PlanState),
      ∃ t, (l.foldl (planStep mmd nom dims) st).future = st.future ++ t := by
  intro l
  induction l with
  | nil => intro st; exact ⟨[], (List.append_nil _).symm⟩
  | cons c l ih =>
    intro st
    rw [List.foldl_cons]
    rcases ih (planStep mmd nom dims st c) with ⟨t, ht⟩
    by_cases hcond : mmd < st.used + dims c ∨ nom = some st.counter
    · have hf : (planStep mmd nom dims st c).future = st.future ++ [c] := by
        unfold planStep
        rw [if_pos hcond]
      exact ⟨[c] ++ t, by rw [ht, hf, List.append_assoc]⟩
    · have hf : (planStep mmd nom dims st c).future = st.future := by
        unfold planStep
        rw [if_neg hcond]
      exact ⟨t, by rw [ht, hf]⟩

lemma plan_future_head (active : List ℕ) (dims : ℕ → ℕ) (mmd : ℕ)
    (nom : Option ℕ) :
    ∃ t, (plan active dims mmd nom).future = 0 :: t := by
  rcases foldl_planStep_future dims mmd nom active planInit with ⟨t, ht⟩
  exact ⟨t, ht⟩

/-- C8 (confirmed): rank 0 heads every level's active set: the initial
active set is the full range (head 0 for P at least 1), each sweep's
future_nodes list starts with 0, so the head of the next level equals the
head of the current one, and 0 belongs to every active set.  Rank 0 is
therefore the surviving node, and the source broadcasts U and the error
from root 0 (svdtools.py lines 414-420). -/
theorem C8_rank0 (P : ℕ) (hP : 1 ≤ P) (dimsSeq : ℕ → ℕ → ℕ) (mmd : ℕ)
    (nom : Option ℕ) :
    ∀ n, (levelActive P dimsSeq mmd nom n).head? = some 0 ∧
      0 ∈ levelActive P dimsSeq mmd nom n ∧
      (levelActive P dimsSeq mmd nom (n + 1)).head?
        = (levelActive P dimsSeq mmd nom n).head? := by
  have hstep : ∀ n, (levelActive P dimsSeq mmd nom (n + 1)).head? = some 0 ∧
      0 ∈ levelActive P dimsSeq mmd nom (n + 1) := by
    intro n
    rcases plan_future_head (levelActive P dimsSeq mmd nom n) (dimsSeq n) mmd
      nom with ⟨t, ht⟩
    constructor
    · show (plan (levelActive P dimsSeq mmd nom n) (dimsSeq n) mmd
        nom).future.head? = some 0
      rw [ht]
      rfl
    · show 0 ∈ (plan (levelActive P dimsSeq mmd nom n) (dimsSeq n) mmd
        nom).future
      rw [ht]
      exact List.mem_cons_self 0 t
  have base : (levelActive P dimsSeq mmd nom 0).head? = some 0 ∧
      0 ∈ levelActive P dimsSeq mmd nom 0 := by
    show (List.range P).head? = some 0 ∧ 0 ∈ List.range P
    obtain ⟨m, rfl⟩ : ∃ m, P = m + 1 := ⟨P - 1, by omega⟩
    rw [List.range_succ_eq_map]
    exact ⟨rfl, List.mem_cons_self _ _⟩
  intro n
  cases n with
  | zero => exact ⟨base.1, base.2, by rw [(hstep 0).1, base.1]⟩
  | succ k => exact ⟨(hstep k).1, (hstep k).2, by rw [(hstep (k + 1)).1, (hstep k).1]⟩

/-- Witness for C8 at P = 2, unit widths, maxmergedim 3, binary-capable
budget: level 1 is headed by rank 0 and keeps heading level 2. -/
theorem C8_witness :
    (levelActive 2 (fun _ _ => 1) 3 none 1).head? = some 0 ∧
    0 ∈ levelActive 2 (fun _ _ => 1) 3 none 1 ∧
    (levelActive 2 (fun _ _ => 1) 3 none 2).head?
      = (levelActive 2 (fun _ _ => 1) 3 none 1).head? :=
  C8_rank0 2 (by omega) (fun _ _ => 1) 3 none 1

end HeatHsvd
